import Mathlib

/-!
Verification of the serverless-log hammer load-test engine
(src/hammer/hammer.go) against its natural-language specification.

The Go source is shallowly embedded: byte slices become lists of
naturals (each < 256 where it matters), goroutine-free sequential
semantics model each component's state transitions explicitly, and
the crypto/rand stream is an explicit byte stream threaded through a
position counter.
-/

set_option autoImplicit false

namespace Hammer

/-- Bytes of an ASCII string literal, used for the fixed text fragments the
Go code formats with fmt/klog. -/
def bytesOfString (s : String) : List Nat :=
  s.toList.map Char.toNat

/-- One lower-case hex digit, as in Go fmt's %x verb. -/
def hexDigit (d : Nat) : Nat :=
  if d < 10 then 48 + d else 87 + d

/-- Hex encoding of a byte slice: two lower-case hex characters per byte,
as produced by fmt.Sprintf %x on a []byte. -/
def hexEnc (bs : List Nat) : List Nat :=
  bs.flatMap (fun b => [hexDigit (b / 16), hexDigit (b % 16)])

/-- Decimal ASCII representation of n, as produced by fmt's %d verb:
most-significant digit first, and "0" for zero. -/
def decRepr (n : Nat) : List Nat :=
  if n = 0 then [48] else ((Nat.digits 10 n).map (· + 48)).reverse

/-- The crypto/rand source: an infinite byte stream plus the number of
bytes already consumed. -/
structure Rng where
  stream : Nat → Nat
  pos : Nat

/-- crand.Read into a buffer of k bytes: returns the bytes and advances
the stream position. -/
def Rng.read (r : Rng) (k : Nat) : List Nat × Rng :=
  ((List.range k).map (fun i => r.stream (r.pos + i) % 256),
   { r with pos := r.pos + k })

/-- genLeaf(n, minLeafSize): hex-encodes minLeafSize/2 random filler bytes
and appends a space (byte 32) and the decimal index. -/
def genLeaf (r : Rng) (n : Nat) (minLeafSize : Nat) : List Nat × Rng :=
  let (filler, r') := r.read (minLeafSize / 2)
  (hexEnc filler ++ [32] ++ decRepr n, r')

/-- Closure state of the function returned by newLeafGenerator: the pending
leaf, the index counter n, and the random source. -/
structure GenState where
  rng : Rng
  nextLeaf : List Nat
  n : Nat

/-- newLeafGenerator(n, minLeafSize) builds the initial closure state:
nextLeaf is pre-generated for index n. -/
def newLeafGenerator (r : Rng) (n : Nat) (minLeafSize : Nat) : GenState :=
  let (l, r') := genLeaf r n minLeafSize
  { rng := r', nextLeaf := l, n := n }

/-- One call of the generator closure. dup is the outcome of the
rand.Float64() <= dupChance draw: when true the pending leaf is returned
again without advancing; otherwise n advances, a fresh pending leaf is
generated, and the previous pending leaf is returned. -/
def genCall (minLeafSize : Nat) (dup : Bool) (s : GenState) :
    List Nat × GenState :=
  if dup then (s.nextLeaf, s)
  else
    let n' := s.n + 1
    let (l', r') := genLeaf s.rng n' minLeafSize
    (s.nextLeaf, { rng := r', nextLeaf := l', n := n' })

/-- A sequence of generator calls driven by the stream ds of duplicate-draw
outcomes; call k uses ds k. -/
def genCalls (minLeafSize : Nat) (ds : Nat → Bool) :
    Nat → GenState → List (List Nat) × GenState
  | 0, s => ([], s)
  | k + 1, s =>
    let (l, s') := genCall minLeafSize (ds 0) s
    let (ls, s'') := genCalls minLeafSize (fun i => ds (i + 1)) k s'
    (l :: ls, s'')

/-! ## Go errors and the consistency-poll tick (Hammer.Run) -/

/-- A Go error value as seen by the hammer. The inconsistency constructor
mirrors client.ErrInconsistency, which per the spec carries the two
conflicting raw checkpoint representations (SmallerRaw, LargerRaw) and an
Error() message; wrap models fmt.Errorf with a %w-wrapped inner error. -/
inductive GoError where
  | inconsistency (smallerRaw largerRaw errMsg : List Nat)
  | other (msg : List Nat)
  | wrap (pre : List Nat) (inner : GoError)

/-- errors.As(err, &client.ErrInconsistency{}): walks the Unwrap chain and
yields the fields of the first ErrInconsistency found. -/
def errorsAsInconsistency : GoError → Option (List Nat × List Nat × List Nat)
  | .inconsistency s l m => some (s, l, m)
  | .other _ => none
  | .wrap _ inner => errorsAsInconsistency inner

/-- The Error() text of an error, as printed by the %v verb. -/
def GoError.message : GoError → List Nat
  | .inconsistency _ _ m => m
  | .other m => m
  | .wrap pre inner => pre ++ inner.message

/-- Outcome of one tick of the 1-second consistency-poll loop: either
klog.Fatalf terminates the process with the given output, or the loop
keeps running, having logged the given lines. -/
inductive TickAction where
  | fatal (output : List Nat)
  | continueLoop (logged : List (List Nat))

/-- The bytes klog.Fatalf emits for an inconsistency: the format string
"Last Good Checkpoint:\n%s\n\nFirst Bad Checkpoint:\n%s\n\n%v" applied to
SmallerRaw, LargerRaw and the inconsistency error itself. -/
def fatalMsg (smallerRaw largerRaw errMsg : List Nat) : List Nat :=
  bytesOfString ("Last Good Checkpoint:\n") ++ smallerRaw ++
  bytesOfString ("\n\nFirst Bad Checkpoint:\n") ++ largerRaw ++
  bytesOfString ("\n\n") ++ errMsg

/-- The "Updated checkpoint from %d to %d" log line. -/
def updMsg (oldSize newSize : Nat) : List Nat :=
  bytesOfString ("Updated checkpoint from ") ++ decRepr oldSize ++
  bytesOfString (" to ") ++ decRepr newSize

/-- One tick of the consistency-poll goroutine in Hammer.Run: size is the
tracker size recorded before the Update call; res is the Update outcome
(new LatestConsistent.Size on success, the error on failure). On an error
the tick warns, and terminates fatally exactly when the error is or wraps
client.ErrInconsistency. -/
def pollTick (size : Nat) (res : Except GoError Nat) : TickAction :=
  match res with
  | .error e =>
    match errorsAsInconsistency e with
    | some (s, l, m) => .fatal (fatalMsg s l m)
    | none => .continueLoop [e.message]
  | .ok newSize =>
    .continueLoop (if size < newSize then [updMsg size newSize] else [])

/-! ## roundRobinFetcher -/

/-- A client.Fetcher: takes a path, returns the ([]byte, error) pair. -/
def Fetcher : Type :=
  String → List Nat × Option GoError

/-- roundRobinFetcher: the rotation index and the fetcher slice. -/
structure roundRobinFetcher where
  idx : Nat
  f : List Fetcher

/-- next(): reads f[idx] and advances idx to (idx+1) mod len(f); none
models the runtime panic when the index access is out of range (in
particular for an empty fetcher slice). -/
def roundRobinFetcher.next (rr : roundRobinFetcher) :
    Option (Fetcher × roundRobinFetcher) :=
  match rr.f.get? rr.idx with
  | none => none
  | some g => some (g, { rr with idx := (rr.idx + 1) % rr.f.length })

/-- Fetch(ctx, path): delegates to next() and passes its result through. -/
def roundRobinFetcher.Fetch (rr : roundRobinFetcher) (path : String) :
    Option ((List Nat × Option GoError) × roundRobinFetcher) :=
  match rr.next with
  | none => none
  | some (g, rr') => some (g path, rr')

/-- The fetcher state after k sequential Fetch calls, starting from the
struct literal roundRobinFetcher{f: fs} built in main (idx zero). -/
def rrAfter (fs : List Fetcher) : Nat → roundRobinFetcher
  | 0 => { idx := 0, f := fs }
  | k + 1 =>
    match (rrAfter fs k).next with
    | some (_, rr') => rr'
    | none => rrAfter fs k

/-! ## LeafConsumer and the hashicorp LRU cache -/

/-- A Leaf as pushed to the consumer channel: the data (keyed by
string(l.Data), modelled directly as a String) and the observed index. -/
structure Leaf where
  data : String
  index : Nat

/-- The hashicorp/golang-lru cache of string keys to uint64 values,
modelled as an association list ordered most-recently-used first,
together with its fixed capacity. -/
structure LRU where
  entries : List (String × Nat)
  cap : Nat

/-- The value currently stored for a key (no recency side effect). -/
def LRU.lookup (c : LRU) (k : String) : Option Nat :=
  (c.entries.find? (fun p => p.1 == k)).map (·.2)

/-- Cache.Get: on a hit returns the value and marks the entry as
most recently used; a miss leaves the cache unchanged. -/
def LRU.get (c : LRU) (k : String) : Option Nat × LRU :=
  match c.entries.find? (fun p => p.1 == k) with
  | some p =>
    (some p.2, { c with entries := (k, p.2) :: c.entries.filter (fun q => q.1 != k) })
  | none => (none, c)

/-- Cache.Add: inserts (or refreshes) the key at the most-recent position;
if the cache then exceeds its capacity the least-recently-used entry is
evicted. -/
def LRU.add (c : LRU) (k : String) (v : Nat) : LRU :=
  let es := (k, v) :: c.entries.filter (fun q => q.1 != k)
  { c with entries := if c.cap < es.length then es.dropLast else es }

/-- LeafConsumer state: the lookup cache and the duplicate counter. -/
structure LeafConsumer where
  lookup : LRU
  duplicateCount : Nat

/-- NewLeafConsumer: an empty LRU of capacity 1024 and a zero counter. -/
def NewLeafConsumer : LeafConsumer :=
  { lookup := { entries := [], cap := 1024 }, duplicateCount := 0 }

/-- One iteration of LeafConsumer.Run for a received leaf l: Get the data
key; on a hit with a different stored index increment duplicateCount; on a
miss Add (data, index). The stored index is never overwritten on a hit. -/
def consumeLeaf (c : LeafConsumer) (l : Leaf) : LeafConsumer :=
  match c.lookup.get l.data with
  | (some oIdx, lk') =>
    if oIdx ≠ l.index then { lookup := lk', duplicateCount := c.duplicateCount + 1 }
    else { lookup := lk', duplicateCount := c.duplicateCount }
  | (none, lk') =>
    { lookup := lk'.add l.data l.index, duplicateCount := c.duplicateCount }

/-- The consumer loop applied to a finite sequence of received leaves. -/
def consumeAll (c : LeafConsumer) (ls : List Leaf) : LeafConsumer :=
  ls.foldl consumeLeaf c

/-! ## Throttle -/

/-- Throttle state: the adjustable target rate, the token channel
(capacity fixed by make(chan bool, opsPerSecond) at construction, current
number of buffered tokens), and the oversupply diagnostic. -/
structure Throttle where
  opsPerSecond : Nat
  tokenCap : Nat
  tokens : Nat
  oversupply : Nat

/-- NewThrottle(opsPerSecond): the channel capacity is the initial rate. -/
def NewThrottle (opsPerSecond : Nat) : Throttle :=
  { opsPerSecond := opsPerSecond, tokenCap := opsPerSecond,
    tokens := 0, oversupply := 0 }

/-- int(delta) where delta = float64(tokenCount)*0.1 raised to 1 when below
1. For every count reachable as a channel capacity (far below 2 to the 53)
the float64 product rounds to a value that truncates to count/10, and the
product is below 1 exactly when count < 10. -/
def intDelta (tokenCount : Nat) : Nat :=
  if tokenCount < 10 then 1 else tokenCount / 10

/-- Throttle.Increase: add the 10 percent (minimum 1) step to the rate.
The token channel is not recreated, so its capacity is unchanged. -/
def Throttle.Increase (t : Throttle) : Throttle :=
  { t with opsPerSecond := t.opsPerSecond + intDelta t.opsPerSecond }

/-- Throttle.Decrease: a no-op at rate <= 1, otherwise subtract the
10 percent (minimum 1) step. The channel capacity is unchanged. -/
def Throttle.Decrease (t : Throttle) : Throttle :=
  if t.opsPerSecond ≤ 1 then t
  else { t with opsPerSecond := t.opsPerSecond - intDelta t.opsPerSecond }

/-- The refill loop body: up to rem more iterations of the select between
a channel send and the 1-second timeout; tAt is the number of select
rounds that complete before the timeout channel becomes ready. With no
concurrent consumer a send on a full channel blocks until the timeout, so
the loop also ends there. Returns the new token count and the number of
tokens pushed. -/
def refillLoop (cap : Nat) : Nat → Nat → Nat → Nat × Nat
  | 0, _, q => (q, 0)
  | _ + 1, 0, q => (q, 0)
  | rem + 1, tAt + 1, q =>
    if q < cap then
      let (q', p) := refillLoop cap rem tAt (q + 1)
      (q', p + 1)
    else (q, 0)

/-- One tick of Throttle.Run: read tokenCount := opsPerSecond, run the
refill loop for opsPerSecond iterations against the 1-second timeout, and
store the undelivered remainder in oversupply. -/
def Throttle.runCycle (t : Throttle) (tAt : Nat) : Throttle :=
  let tokenCount := t.opsPerSecond
  let r := refillLoop t.tokenCap tokenCount tAt t.tokens
  { t with tokens := r.1, oversupply := tokenCount - r.2 }

/-- Acquire: a worker receives one token from the channel (blocking while
empty; only the successful receive changes state). -/
def Throttle.acquire (t : Throttle) : Throttle :=
  { t with tokens := t.tokens - 1 }

/-- The operations that touch a Throttle during its lifetime. -/
inductive ThrottleOp where
  | inc
  | dec
  | cycle (tAt : Nat)
  | acquire

/-- Apply one lifetime operation. -/
def throttleStep (t : Throttle) : ThrottleOp → Throttle
  | .inc => t.Increase
  | .dec => t.Decrease
  | .cycle tAt => t.runCycle tAt
  | .acquire => t.acquire

/-- Apply a finite sequence of lifetime operations. -/
def throttleRun (t : Throttle) (ops : List ThrottleOp) : Throttle :=
  ops.foldl throttleStep t

/-! ## Concrete instances used in witness statements -/

/-- Decoding a decimal representation: left inverse of decRepr. -/
def decVal (bs : List Nat) : Nat :=
  Nat.ofDigits 10 (bs.reverse.map (· - 48))

/-- Three concrete sub-fetchers for the rotation witness. -/
def threeFetchers : List Fetcher :=
  [fun _ => ([1], none), fun _ => ([2], none), fun _ => ([3], none)]

/-- A concrete sub-fetcher for the bounds witness. -/
def oneFetcher : Fetcher := fun _ => ([], none)

/-- A concrete random source for the generator witnesses. -/
def constRng : Rng := { stream := fun i => i, pos := 0 }

/-! ## Helper lemmas -/

theorem hexEnc_length (bs : List Nat) : (hexEnc bs).length = 2 * bs.length := by
  induction bs with
  | nil => rfl
  | cons b bs ih =>
    simp only [hexEnc, List.flatMap_cons] at *
    simp [ih]
    omega

theorem decVal_decRepr (n : Nat) : decVal (decRepr n) = n := by
  unfold decVal decRepr
  by_cases h : n = 0
  · simp [h, Nat.ofDigits]
  · simp only [h, if_false, List.reverse_reverse, List.map_map]
    have : ((· - 48) ∘ (· + 48) : Nat → Nat) = id := by
      funext d; simp
    rw [this, List.map_id, Nat.ofDigits_digits]

theorem decRepr_injective {a b : Nat} (h : decRepr a = decRepr b) : a = b := by
  have := congrArg decVal h
  rwa [decVal_decRepr, decVal_decRepr] at this

theorem decRepr_length_pos (n : Nat) : 1 ≤ (decRepr n).length := by
  unfold decRepr
  by_cases h : n = 0
  · simp [h]
  · simp only [h, if_false, List.length_reverse, List.length_map]
    have hne : Nat.digits 10 n ≠ [] := Nat.digits_ne_nil_iff_ne_zero.mpr h
    exact List.length_pos.mpr hne

theorem LRU.get_fst (c : LRU) (k : String) : (c.get k).1 = c.lookup k := by
  unfold LRU.get LRU.lookup
  cases c.entries.find? (fun p => p.1 == k) <;> simp

theorem intDelta_eq (n : Nat) : intDelta n = max 1 (n / 10) := by
  unfold intDelta
  split <;> omega

theorem refillLoop_eq (cap : Nat) :
    ∀ rate tAt q, refillLoop cap rate tAt q =
      (q + min rate (min tAt (cap - q)), min rate (min tAt (cap - q))) := by
  intro rate
  induction rate with
  | zero => intro tAt q; simp [refillLoop]
  | succ rate ih =>
    intro tAt q
    cases tAt with
    | zero => simp [refillLoop]
    | succ tAt =>
      by_cases hq : q < cap
      · simp only [refillLoop, if_pos hq, ih tAt (q + 1), Prod.mk.injEq]
        constructor <;> omega
      · simp only [refillLoop, if_neg hq, Prod.mk.injEq]
        constructor <;> omega

theorem rrAfter_f (fs : List Fetcher) (k : Nat) : (rrAfter fs k).f = fs := by
  induction k with
  | zero => rfl
  | succ k ih =>
    simp only [rrAfter, roundRobinFetcher.next]
    cases h : (rrAfter fs k).f.get? (rrAfter fs k).idx <;> simp [ih]

theorem rrAfter_idx (fs : List Fetcher) (hne : fs ≠ []) (k : Nat) :
    (rrAfter fs k).idx = k % fs.length := by
  have hlen : 0 < fs.length := List.length_pos.mpr hne
  induction k with
  | zero => simp [rrAfter, Nat.zero_mod]
  | succ k ih =>
    have hf := rrAfter_f fs k
    have hidx : (rrAfter fs k).idx < fs.length := by
      rw [ih]; exact Nat.mod_lt _ hlen
    have hget : (rrAfter fs k).f.get? (rrAfter fs k).idx
        = some ((rrAfter fs k).f.get ⟨(rrAfter fs k).idx, by rw [hf]; exact hidx⟩) :=
      List.get?_eq_get _
    simp only [rrAfter, roundRobinFetcher.next, hget]
    simp [hf, ih, Nat.mod_add_mod]

theorem runCycle_rate (t : Throttle) (tAt : Nat) :
    (t.runCycle tAt).opsPerSecond = t.opsPerSecond := by
  simp [Throttle.runCycle]

theorem throttleStep_rate_floor (t : Throttle) (op : ThrottleOp)
    (h : 1 ≤ t.opsPerSecond) : 1 ≤ (throttleStep t op).opsPerSecond := by
  cases op with
  | inc =>
    simp only [throttleStep, Throttle.Increase]
    omega
  | dec =>
    simp only [throttleStep, Throttle.Decrease]
    split
    · exact h
    · simp only [intDelta_eq]
      omega
  | cycle tAt => rw [throttleStep, runCycle_rate]; exact h
  | acquire => exact h

theorem throttleStep_cap (t : Throttle) (op : ThrottleOp) :
    (throttleStep t op).tokenCap = t.tokenCap := by
  cases op with
  | inc => rfl
  | dec => simp only [throttleStep, Throttle.Decrease]; split <;> rfl
  | cycle tAt => simp [throttleStep, Throttle.runCycle]
  | acquire => rfl

theorem throttleStep_tokens_le (t : Throttle) (op : ThrottleOp)
    (h : t.tokens ≤ t.tokenCap) : (throttleStep t op).tokens ≤ t.tokenCap := by
  cases op with
  | inc => exact h
  | dec => simp only [throttleStep, Throttle.Decrease]; split <;> exact h
  | cycle tAt =>
    simp only [throttleStep, Throttle.runCycle, refillLoop_eq]
    omega
  | acquire =>
    simp only [throttleStep, Throttle.acquire]
    omega

/-- C2: for every throttle state with a positive rate, the rate stays at
least 1 across any sequence of operations; Decrease at rate at most 1 is a
no-op; an effective Decrease subtracts max(1, rate/10) and an Increase
adds max(1, rate/10). -/
theorem throttle_rate_floor :
    (∀ (t : Throttle) (ops : List ThrottleOp),
        1 ≤ t.opsPerSecond → 1 ≤ (throttleRun t ops).opsPerSecond)
    ∧ (∀ t : Throttle, t.opsPerSecond ≤ 1 →
        t.Decrease.opsPerSecond = t.opsPerSecond)
    ∧ (∀ t : Throttle, 1 < t.opsPerSecond →
        t.Decrease.opsPerSecond = t.opsPerSecond - max 1 (t.opsPerSecond / 10))
    ∧ (∀ t : Throttle,
        t.Increase.opsPerSecond = t.opsPerSecond + max 1 (t.opsPerSecond / 10)) := by
  refine ⟨?_, ?_, ?_, ?_⟩
  · intro t ops h
    induction ops generalizing t with
    | nil => exact h
    | cons op ops ih =>
      exact ih (throttleStep t op) (throttleStep_rate_floor t op h)
  · intro t h
    simp [Throttle.Decrease, h]
  · intro t h
    have h2 : ¬t.opsPerSecond ≤ 1 := by omega
    simp [Throttle.Decrease, h2, intDelta_eq]
  · intro t
    simp [Throttle.Increase, intDelta_eq]

/-- Witness for C2 at concrete inputs. -/
theorem throttle_rate_floor_witness :
    (1 ≤ (throttleRun (NewThrottle 3)
        [ThrottleOp.dec, ThrottleOp.dec, ThrottleOp.inc]).opsPerSecond)
    ∧ (NewThrottle 1).Decrease.opsPerSecond = (NewThrottle 1).opsPerSecond
    ∧ (NewThrottle 20).Decrease.opsPerSecond
        = (NewThrottle 20).opsPerSecond - max 1 ((NewThrottle 20).opsPerSecond / 10) :=
  ⟨throttle_rate_floor.1 (NewThrottle 3) _ (by decide),
   throttle_rate_floor.2.1 (NewThrottle 1) (by decide),
   throttle_rate_floor.2.2.1 (NewThrottle 20) (by decide)⟩

/-- C4: one refill cycle with target rate R read at its start pushes
pushed = min R (min timeout freeSpace) tokens, never more than R, ends
with oversupply = R - pushed, and the previous cycle's oversupply has no
effect on the cycle (undelivered tokens are dropped, not carried over). -/
theorem throttle_refill_cycle :
    ∀ (t : Throttle) (tAt : Nat),
      (∃ pushed,
        pushed = min t.opsPerSecond (min tAt (t.tokenCap - t.tokens))
        ∧ pushed ≤ t.opsPerSecond
        ∧ t.runCycle tAt = { t with tokens := t.tokens + pushed,
                                    oversupply := t.opsPerSecond - pushed })
      ∧ (∀ o : Nat, ({ t with oversupply := o } : Throttle).runCycle tAt
          = t.runCycle tAt) := by
  intro t tAt
  constructor
  · refine ⟨min t.opsPerSecond (min tAt (t.tokenCap - t.tokens)), rfl, ?_, ?_⟩
    · omega
    · simp [Throttle.runCycle, refillLoop_eq]
  · intro o
    simp [Throttle.runCycle]

/-- C5 counterexample: after an Increase the token-channel capacity no
longer equals the current target rate (the channel is never recreated). -/
theorem throttle_capacity_counterexample :
    (NewThrottle 5).Increase.tokenCap ≠ (NewThrottle 5).Increase.opsPerSecond := by
  decide

/-- C5 amended: the token-channel capacity stays equal to the rate the
throttle was constructed with (Increase/Decrease never resize it), and
the number of buffered tokens never exceeds that fixed capacity. -/
theorem throttle_capacity_fixed :
    ∀ (r : Nat) (ops : List ThrottleOp),
      (throttleRun (NewThrottle r) ops).tokenCap = r
      ∧ (throttleRun (NewThrottle r) ops).tokens ≤ r := by
  intro r ops
  suffices h : ∀ (ops : List ThrottleOp) (t : Throttle), t.tokens ≤ t.tokenCap →
      (throttleRun t ops).tokenCap = t.tokenCap
      ∧ (throttleRun t ops).tokens ≤ t.tokenCap by
    have := h ops (NewThrottle r) (by simp [NewThrottle])
    simpa [NewThrottle] using this
  intro ops
  induction ops with
  | nil => intro t ht; exact ⟨rfl, ht⟩
  | cons op ops ih =>
    intro t ht
    have hcap := throttleStep_cap t op
    have htok := throttleStep_tokens_le t op ht
    have := ih (throttleStep t op) (by rw [hcap]; exact htok)
    rw [throttleRun] at *
    simp only [List.foldl_cons]
    refine ⟨?_, ?_⟩
    · rw [this.1, hcap]
    · rw [← hcap]; exact this.2

/-- C1: on a poll tick whose Update call fails, the loop terminates
fatally exactly when the error is or wraps client.ErrInconsistency, and
the fatal output contains both conflicting raw checkpoint blobs; every
other Update error is only logged and the loop continues. -/
theorem pollTick_inconsistency_fatal :
    ∀ (size : Nat) (e : GoError),
      (∀ s l m, errorsAsInconsistency e = some (s, l, m) →
        ∃ out, pollTick size (Except.error e) = TickAction.fatal out
          ∧ (∃ u v, out = u ++ s ++ v)
          ∧ (∃ u v, out = u ++ l ++ v))
      ∧ (errorsAsInconsistency e = none →
          pollTick size (Except.error e) = TickAction.continueLoop [e.message]) := by
  intro size e
  constructor
  · intro s l m h
    refine ⟨fatalMsg s l m, by simp [pollTick, h], ?_, ?_⟩
    · exact ⟨bytesOfString ("Last Good Checkpoint:\n"),
        bytesOfString ("\n\nFirst Bad Checkpoint:\n") ++ l ++ bytesOfString ("\n\n") ++ m,
        by simp [fatalMsg]⟩
    · exact ⟨bytesOfString ("Last Good Checkpoint:\n") ++ s
          ++ bytesOfString ("\n\nFirst Bad Checkpoint:\n"),
        bytesOfString ("\n\n") ++ m,
        by simp [fatalMsg]⟩
  · intro h
    simp [pollTick, h]

/-- Witness for C1: a wrapped inconsistency error is fatal and its two
checkpoint blobs appear in the output. -/
theorem pollTick_inconsistency_fatal_witness :
    ∃ out, pollTick 0 (Except.error (GoError.wrap (bytesOfString ("update: "))
        (GoError.inconsistency [1] [2] [3]))) = TickAction.fatal out
      ∧ (∃ u v, out = u ++ [1] ++ v)
      ∧ (∃ u v, out = u ++ [2] ++ v) :=
  (pollTick_inconsistency_fatal 0 _).1 [1] [2] [3] rfl

/-- C7: starting from the fetcher built in main (index 0), the k-th Fetch
call delegates to sub-fetcher k mod N and passes its byte/error result
through unchanged. -/
theorem roundRobin_rotation :
    ∀ (fs : List Fetcher) (k : Nat) (path : String),
      fs ≠ [] →
      ∃ g, fs.get? (k % fs.length) = some g
        ∧ (rrAfter fs k).Fetch path = some (g path, rrAfter fs (k + 1)) := by
  intro fs k path hne
  have hlen : 0 < fs.length := List.length_pos.mpr hne
  have hidx := rrAfter_idx fs hne k
  have hf := rrAfter_f fs k
  have hmod : k % fs.length < fs.length := Nat.mod_lt _ hlen
  obtain ⟨g, hg⟩ : ∃ g, fs.get? (k % fs.length) = some g :=
    ⟨fs.get ⟨k % fs.length, hmod⟩, List.get?_eq_get hmod⟩
  have hnext : (rrAfter fs k).next
      = some (g, { rrAfter fs k with
          idx := ((rrAfter fs k).idx + 1) % (rrAfter fs k).f.length }) := by
    unfold roundRobinFetcher.next
    rw [hf, hidx, hg]
    simp [hf]
  have hstep : rrAfter fs (k + 1)
      = { rrAfter fs k with
          idx := ((rrAfter fs k).idx + 1) % (rrAfter fs k).f.length } := by
    simp [rrAfter, hnext]
  refine ⟨g, hg, ?_⟩
  unfold roundRobinFetcher.Fetch
  rw [hnext, hstep]

/-- Witness for C7: with 3 sub-fetchers, call 4 goes to sub-fetcher 1. -/
theorem roundRobin_rotation_witness :
    ∃ g, threeFetchers.get? (4 % threeFetchers.length) = some g
      ∧ (rrAfter threeFetchers 4).Fetch ("p")
          = some (g ("p"), rrAfter threeFetchers 5) :=
  roundRobin_rotation threeFetchers 4 ("p") (by simp [threeFetchers])

/-- C10: next() keeps the rotation index strictly inside the bounds of a
non-empty fetcher slice (so the indexing never fails), and on an empty
slice the operation fails. -/
theorem roundRobin_next_safe :
    ∀ rr : roundRobinFetcher,
      (rr.f ≠ [] → rr.idx < rr.f.length →
        ∃ g rr', rr.next = some (g, rr')
          ∧ rr'.f = rr.f ∧ rr'.idx < rr'.f.length)
      ∧ (rr.f = [] → rr.next = none) := by
  intro rr
  constructor
  · intro hne hlt
    have hget : rr.f.get? rr.idx = some (rr.f.get ⟨rr.idx, hlt⟩) :=
      List.get?_eq_get hlt
    refine ⟨rr.f.get ⟨rr.idx, hlt⟩,
      { rr with idx := (rr.idx + 1) % rr.f.length }, ?_, rfl, ?_⟩
    · unfold roundRobinFetcher.next
      rw [hget]
    · exact Nat.mod_lt _ (List.length_pos.mpr hne)
  · intro hnil
    unfold roundRobinFetcher.next
    simp [hnil]

/-- Witness for C10 at a singleton fetcher slice. -/
theorem roundRobin_next_safe_witness :
    ∃ g rr', ({ idx := 0, f := [oneFetcher] } : roundRobinFetcher).next
        = some (g, rr')
      ∧ rr'.f = ({ idx := 0, f := [oneFetcher] } : roundRobinFetcher).f
      ∧ rr'.idx < rr'.f.length :=
  (roundRobin_next_safe _).1 (by simp) (by simp)

theorem find?_key_cons_self (k : String) (v : Nat) (t : List (String × Nat)) :
    List.find? (fun p => p.1 == k) ((k, v) :: t) = some (k, v) :=
  List.find?_cons_of_pos _ (by simp)

/-- consumeLeaf restated over the cache-lookup outcome (the Get hit/miss
test) using structure eta. -/
theorem consumeLeaf_eq (c : LeafConsumer) (l : Leaf) :
    consumeLeaf c l =
      match c.lookup.lookup l.data with
      | some oIdx =>
        if oIdx ≠ l.index
        then { lookup := (c.lookup.get l.data).2,
               duplicateCount := c.duplicateCount + 1 }
        else { lookup := (c.lookup.get l.data).2,
               duplicateCount := c.duplicateCount }
      | none => { lookup := ((c.lookup.get l.data).2).add l.data l.index,
                  duplicateCount := c.duplicateCount } := by
  rw [← LRU.get_fst]
  unfold consumeLeaf
  rcases hg : c.lookup.get l.data with ⟨o, lk'⟩
  cases o <;> rfl

theorem consumeLeaf_count_miss (c : LeafConsumer) (l : Leaf)
    (h : c.lookup.lookup l.data = none) :
    (consumeLeaf c l).duplicateCount = c.duplicateCount := by
  rw [consumeLeaf_eq, h]

theorem consumeLeaf_count_mono (c : LeafConsumer) (l : Leaf) :
    c.duplicateCount ≤ (consumeLeaf c l).duplicateCount := by
  rw [consumeLeaf_eq]
  cases ho : c.lookup.lookup l.data with
  | none => exact Nat.le_refl _
  | some oIdx =>
    dsimp only
    split <;> simp

theorem consumeAll_count_mono (c : LeafConsumer) (ls : List Leaf) :
    c.duplicateCount ≤ (consumeAll c ls).duplicateCount := by
  induction ls generalizing c with
  | nil => exact Nat.le_refl _
  | cons l ls ih =>
    calc c.duplicateCount ≤ (consumeLeaf c l).duplicateCount :=
          consumeLeaf_count_mono c l
      _ ≤ (consumeAll (consumeLeaf c l) ls).duplicateCount := ih (consumeLeaf c l)

/-- Adding to a cache of positive capacity makes the key immediately
retrievable: the new entry sits at the most-recent position and is never
the one evicted. -/
theorem LRU.add_lookup_self (c : LRU) (k : String) (v : Nat) (hcap : 1 ≤ c.cap) :
    (c.add k v).lookup k = some v := by
  show ((if c.cap < ((k, v) :: c.entries.filter (fun q => q.1 != k)).length
        then ((k, v) :: c.entries.filter (fun q => q.1 != k)).dropLast
        else (k, v) :: c.entries.filter (fun q => q.1 != k)).find?
          (fun p => p.1 == k)).map (·.2) = some v
  split
  · rename_i hlen
    rcases hrest : c.entries.filter (fun q => q.1 != k) with _ | ⟨x, t⟩
    · rw [hrest] at hlen
      simp at hlen
      omega
    · rw [hrest]
      rw [show ((k, v) :: x :: t).dropLast = (k, v) :: (x :: t).dropLast from rfl]
      simp [find?_key_cons_self]
  · simp [find?_key_cons_self]

/-- C3: same data at the same index is ignored; same data at two indices
is counted exactly once; data absent from the cache (in particular after
an eviction) never increments the counter; the counter is monotone and
increases only on a cache hit with a different stored index. -/
theorem leafConsumer_duplicate_count :
    (consumeAll NewLeafConsumer [⟨"x", 1⟩, ⟨"x", 1⟩]).duplicateCount = 0
    ∧ (consumeAll NewLeafConsumer [⟨"x", 1⟩, ⟨"x", 2⟩]).duplicateCount = 1
    ∧ (∀ (c : LeafConsumer) (l : Leaf), c.lookup.lookup l.data = none →
        (consumeLeaf c l).duplicateCount = c.duplicateCount)
    ∧ (∀ (c : LeafConsumer) (ls : List Leaf),
        c.duplicateCount ≤ (consumeAll c ls).duplicateCount)
    ∧ (∀ (c : LeafConsumer) (l : Leaf),
        c.duplicateCount < (consumeLeaf c l).duplicateCount →
        ∃ i, c.lookup.lookup l.data = some i ∧ i ≠ l.index
          ∧ (consumeLeaf c l).duplicateCount = c.duplicateCount + 1) := by
  refine ⟨rfl, rfl, consumeLeaf_count_miss, consumeAll_count_mono, ?_⟩
  intro c l h
  rw [consumeLeaf_eq] at h
  cases ho : c.lookup.lookup l.data with
  | none =>
    simp only [ho] at h
    exact absurd h (Nat.lt_irrefl _)
  | some oIdx =>
    simp only [ho] at h
    by_cases hi : oIdx ≠ l.index
    · refine ⟨oIdx, rfl, hi, ?_⟩
      simp [consumeLeaf_eq, ho, hi]
    · rw [if_neg hi] at h
      exact absurd h (Nat.lt_irrefl _)

/-- Witness for C3: a leaf whose data is not in the cache leaves the
counter unchanged. -/
theorem leafConsumer_duplicate_count_witness :
    (consumeLeaf NewLeafConsumer ⟨"x", 5⟩).duplicateCount
      = NewLeafConsumer.duplicateCount :=
  leafConsumer_duplicate_count.2.2.1 NewLeafConsumer ⟨"x", 5⟩ rfl

/-- C8 counterexample: after consuming (x,1) then (x,2) the cache still
maps x to 1, not to the index 2 of the most recently processed leaf with
that content — a hit never overwrites the stored index. -/
theorem consumer_cache_not_latest_index :
    (consumeAll NewLeafConsumer [⟨"x", 1⟩, ⟨"x", 2⟩]).lookup.lookup ("x") = some 1
    ∧ (1 : Nat) ≠ 2 := ⟨rfl, by decide⟩

/-- C8 amended: each content key in the cache maps to the index recorded
when the key was inserted (the first leaf with that content since the key
was last absent): a hit preserves the stored index, and a miss stores the
missing leaf's own index. -/
theorem consumer_cache_insertion_index :
    ∀ (c : LeafConsumer) (l : Leaf),
      (∀ i, c.lookup.lookup l.data = some i →
        (consumeLeaf c l).lookup.lookup l.data = some i)
      ∧ (c.lookup.lookup l.data = none → 1 ≤ c.lookup.cap →
        (consumeLeaf c l).lookup.lookup l.data = some l.index) := by
  intro c l
  constructor
  · intro i hi
    obtain ⟨p, hp, hpi⟩ : ∃ p, c.lookup.entries.find? (fun q => q.1 == l.data)
        = some p ∧ p.2 = i := by
      unfold LRU.lookup at hi
      rcases hfind : c.lookup.entries.find? (fun q => q.1 == l.data) with _ | p
      · rw [hfind] at hi; simp at hi
      · rw [hfind] at hi
        simp only [Option.map_some', Option.some.injEq] at hi
        exact ⟨p, hfind, hi⟩
    have hget2 : (c.lookup.get l.data).2
        = { c.lookup with
            entries := (l.data, p.2) :: c.lookup.entries.filter
              (fun q => q.1 != l.data) } := by
      unfold LRU.get
      rw [hp]
    have hmain : ((c.lookup.get l.data).2).lookup l.data = some i := by
      rw [hget2]
      unfold LRU.lookup
      simp only [find?_key_cons_self, Option.map_some', Option.some.injEq]
      exact hpi
    simp only [consumeLeaf_eq, hi]
    split
    · exact hmain
    · exact hmain
  · intro hnone hcap
    have hf : c.lookup.entries.find? (fun q => q.1 == l.data) = none := by
      unfold LRU.lookup at hnone
      exact Option.map_eq_none'.mp hnone
    have hget2 : (c.lookup.get l.data).2 = c.lookup := by
      unfold LRU.get
      rw [hf]
    rw [consumeLeaf_eq, hnone]
    show (((c.lookup.get l.data).2).add l.data l.index).lookup l.data
      = some l.index
    rw [hget2]
    exact LRU.add_lookup_self c.lookup l.data l.index hcap

/-- Witness for C8 amended: a miss on an empty cache stores the leaf's
own index. -/
theorem consumer_cache_insertion_index_witness :
    (consumeLeaf NewLeafConsumer ⟨"y", 3⟩).lookup.lookup ("y") = some 3 :=
  (consumer_cache_insertion_index NewLeafConsumer ⟨"y", 3⟩).2 rfl (by decide)

theorem read_length (r : Rng) (k : Nat) : ((r.read k).1).length = k := by
  simp [Rng.read]

/-- C9: the payload of genLeaf(n, m) is the hex encoding of m/2 random
filler bytes, a space (byte 32), and the decimal index; its length is at
least m, and for odd m the hex part alone has m-1 bytes. -/
theorem genLeaf_format :
    ∀ (r : Rng) (n m : Nat),
      (genLeaf r n m).1 = hexEnc ((r.read (m / 2)).1) ++ [32] ++ decRepr n
      ∧ ((r.read (m / 2)).1).length = m / 2
      ∧ m ≤ ((genLeaf r n m).1).length
      ∧ (m % 2 = 1 → (hexEnc ((r.read (m / 2)).1)).length = m - 1) := by
  intro r n m
  have hhex : (hexEnc ((r.read (m / 2)).1)).length = 2 * (m / 2) := by
    rw [hexEnc_length, read_length]
  have hdec := decRepr_length_pos n
  refine ⟨rfl, read_length r (m / 2), ?_, ?_⟩
  · show m ≤ (hexEnc ((r.read (m / 2)).1) ++ [32] ++ decRepr n).length
    simp only [List.length_append, hhex, List.length_singleton]
    omega
  · intro hodd
    rw [hhex]
    omega

/-- Witness for C9 at an odd minimum size. -/
theorem genLeaf_format_witness :
    5 ≤ ((genLeaf constRng 7 5).1).length
    ∧ (hexEnc ((constRng.read (5 / 2)).1)).length = 5 - 1 :=
  ⟨(genLeaf_format constRng 7 5).2.2.1, (genLeaf_format constRng 7 5).2.2.2 rfl⟩

theorem genCalls_false_get :
    ∀ (N m : Nat) (s : GenState),
      (∃ f, f.length = m / 2 ∧ s.nextLeaf = hexEnc f ++ [32] ++ decRepr s.n) →
      ∀ i, i < N →
        ∃ f, f.length = m / 2 ∧
          ((genCalls m (fun _ => false) N s).1).get? i
            = some (hexEnc f ++ [32] ++ decRepr (s.n + i)) := by
  intro N
  induction N with
  | zero => intro m s hwf i hi; exact absurd hi (by omega)
  | succ N ih =>
    intro m s hwf i hi
    have hstep : (genCalls m (fun _ => false) (N + 1) s).1
        = s.nextLeaf :: (genCalls m (fun _ => false) N
            { rng := (genLeaf s.rng (s.n + 1) m).2,
              nextLeaf := (genLeaf s.rng (s.n + 1) m).1,
              n := s.n + 1 }).1 := rfl
    cases i with
    | zero =>
      rcases hwf with ⟨f, hfl, hnl⟩
      refine ⟨f, hfl, ?_⟩
      rw [hstep]
      simp [hnl]
    | succ i =>
      have hwf' : ∃ f, f.length = m / 2 ∧
          (GenState.mk (genLeaf s.rng (s.n + 1) m).2
            (genLeaf s.rng (s.n + 1) m).1 (s.n + 1)).nextLeaf
            = hexEnc f ++ [32]
              ++ decRepr (GenState.mk (genLeaf s.rng (s.n + 1) m).2
                (genLeaf s.rng (s.n + 1) m).1 (s.n + 1)).n :=
        ⟨(s.rng.read (m / 2)).1, read_length s.rng (m / 2), rfl⟩
      obtain ⟨f, hfl, hout⟩ := ih m
        { rng := (genLeaf s.rng (s.n + 1) m).2,
          nextLeaf := (genLeaf s.rng (s.n + 1) m).1,
          n := s.n + 1 } hwf' i (by omega)
      refine ⟨f, hfl, ?_⟩
      rw [hstep, List.get?_cons_succ,
        show s.n + (i + 1) = s.n + 1 + i by omega]
      exact hout

theorem genCalls_true (m : Nat) (s : GenState) :
    ∀ N, genCalls m (fun _ => true) N s = (List.replicate N s.nextLeaf, s) := by
  intro N
  induction N with
  | zero => rfl
  | succ N ih =>
    have hstep : genCalls m (fun _ => true) (N + 1) s
        = (s.nextLeaf :: (genCalls m (fun _ => true) N s).1,
           (genCalls m (fun _ => true) N s).2) := rfl
    rw [hstep, ih]
    rfl

/-- C6: with every duplicate draw failing (duplicate probability 0), N
calls return payloads embedding the strictly increasing indices n0, n0+1,
..., pairwise distinct as byte strings, for every random byte stream;
with every draw succeeding (probability 1), every call returns the first
pending payload and neither the index counter nor the state advances. -/
theorem leafGenerator_extremes :
    (∀ (m : Nat) (r : Rng) (n0 N : Nat),
      (∀ i, i < N → ∃ f, f.length = m / 2 ∧
        ((genCalls m (fun _ => false) N (newLeafGenerator r n0 m)).1).get? i
          = some (hexEnc f ++ [32] ++ decRepr (n0 + i)))
      ∧ (∀ i j, i < N → j < N → i ≠ j →
        ((genCalls m (fun _ => false) N (newLeafGenerator r n0 m)).1).get? i
          ≠ ((genCalls m (fun _ => false) N (newLeafGenerator r n0 m)).1).get? j))
    ∧ (∀ (m : Nat) (s : GenState) (N : Nat),
      genCalls m (fun _ => true) N s = (List.replicate N s.nextLeaf, s)) := by
  refine ⟨?_, fun m s N => genCalls_true m s N⟩
  intro m r n0 N
  have hwf : ∃ f, f.length = m / 2 ∧
      (newLeafGenerator r n0 m).nextLeaf
        = hexEnc f ++ [32] ++ decRepr (newLeafGenerator r n0 m).n :=
    ⟨(r.read (m / 2)).1, read_length r (m / 2), rfl⟩
  have hn : (newLeafGenerator r n0 m).n = n0 := rfl
  constructor
  · intro i hi
    have h := genCalls_false_get N m (newLeafGenerator r n0 m) hwf i hi
    rwa [hn] at h
  · intro i j hi hj hij heq
    obtain ⟨fi, hfi, houti⟩ := genCalls_false_get N m (newLeafGenerator r n0 m) hwf i hi
    obtain ⟨fj, hfj, houtj⟩ := genCalls_false_get N m (newLeafGenerator r n0 m) hwf j hj
    rw [hn] at houti houtj
    rw [houti, houtj] at heq
    have heq2 : (hexEnc fi ++ [32]) ++ decRepr (n0 + i)
        = (hexEnc fj ++ [32]) ++ decRepr (n0 + j) := by
      have := Option.some.inj heq
      simpa [List.append_assoc] using this
    have hlen : (hexEnc fi ++ [32]).length = (hexEnc fj ++ [32]).length := by
      simp [hexEnc_length, hfi, hfj]
    have hdec := (List.append_inj heq2 hlen).2
    have := decRepr_injective hdec
    omega

/-- Witness for C6: with duplicate draws off, the first two payloads of a
concrete generator differ. -/
theorem leafGenerator_extremes_witness :
    ((genCalls 4 (fun _ => false) 2 (newLeafGenerator constRng 5 4)).1).get? 0
      ≠ ((genCalls 4 (fun _ => false) 2 (newLeafGenerator constRng 5 4)).1).get? 1 :=
  (leafGenerator_extremes.1 4 constRng 5 2).2 0 1 (by decide) (by decide) (by decide)

end Hammer
